import Mathlib

/-!
Shallow embedding of the COMP6453 generalized-XMSS hash-based signature
repository (a Python translation of the Rust `hash-sig` library), together
with proofs settling the frozen claims about it.

Conventions of the embedding:
* Python integers are modelled as `Int` (or `Nat` where the source value is
  manifestly non-negative, e.g. loop counters and list lengths).
* Python `%` and `//` on integers are floor-based, so they are modelled by
  `Int.fmod` / `Int.fdiv`.
* Python exceptions are modelled with `Except PyErr`; `assert` statements
  throw `PyErr.assertionError`, list subscripts out of range throw
  `PyErr.indexError`, and so on.  Where the source performs an attribute
  lookup or a call that Python itself rejects (a missing method, a call with
  the wrong number of arguments), the embedding throws the error Python
  raises there (`attributeError` / `typeError`); each such point is
  documented at its definition.
* Hash primitives, PRFs and RNGs are abstracted as function parameters: the
  claims under study are structural and hold (or fail) for every choice of
  these functions.
-/

namespace GXMSS

/-- Errors raised by the Python source: `AssertionError` for failed
`assert`s, `AttributeError` for missing attributes, `TypeError` for calls
with the wrong number of arguments, `IndexError` for out-of-range list
subscripts, `EncodingError` from `inc_encoding` (messages "Sum mismatch" and
"Checksum overflow"), and the two `SigningError`s of `signature/__init__.py`
(`InvalidMessageLength`, `UnluckyFailure`). -/
inductive PyErr where
  | assertionError
  | attributeError
  | typeError
  | indexError
  | encodingError
  | invalidMessageLength
  | unluckyFailure
  deriving DecidableEq, Repr

/-- Python list subscript `xs[i]`: non-negative indices are used directly,
negative indices wrap around once from the end, anything else raises
`IndexError`. -/
def listGetPy {α : Type} (xs : List α) (i : Int) : Except PyErr α :=
  let j : Int := if i < 0 then i + xs.length else i
  if h : 0 ≤ j ∧ j.toNat < xs.length then .ok (xs.get ⟨j.toNat, h.2⟩)
  else .error .indexError

/-! ## Chain walker (`src/symmetric/tweak_hash/__init__.py`, `chain`)

The Python `chain(parameter, epoch, chain_index, start_pos_in_chain, steps,
start, th_class)` runs `for j in range(steps): current =
th_class.apply(parameter, th_class.chain_tweak(epoch, chain_index,
start_pos_in_chain + j + 1), [current])` and returns `current`.  The
tweakable hash is abstracted into the two functions it supplies:
`thApply` (its `apply`) and `chainTweak` (its `chain_tweak`). -/

def chain {P T D : Type} (thApply : P → T → List D → D)
    (chainTweak : Nat → Nat → Nat → T) (parameter : P)
    (epoch chainIndex startPos steps : Nat) (start : D) : D :=
  (List.range steps).foldl
    (fun current j =>
      thApply parameter (chainTweak epoch chainIndex (startPos + j + 1)) [current])
    start

/-- Formalisation of claim C7's wording (spec §4.3): `steps = 0` returns
`start` unchanged, and for `steps ≥ 1` the `j`-th application
(`j = 1..steps`) hashes the single-element list holding the previous value
under the tweak `chain_tweak(epoch, chain_index, start_pos + j)`.  Stated as
a recursion peeling off the last (`j = steps`) application. -/
def chainSpecRec {P T D : Type} (thApply : P → T → List D → D)
    (chainTweak : Nat → Nat → Nat → T) (parameter : P)
    (epoch chainIndex startPos : Nat) : Nat → D → D
  | 0, s => s
  | steps + 1, s =>
      thApply parameter (chainTweak epoch chainIndex (startPos + (steps + 1)))
        [chainSpecRec thApply chainTweak parameter epoch chainIndex startPos steps s]

/-! ## Incomparable encodings -/

/-- Abstraction of a `MessageHash` instance as used by the encoding layer
(`symmetric/message_hash/__init__.py`): the structural attributes
`DIMENSION` and `BASE`, and the method `apply(parameter, epoch, randomness,
message)` returning the chunk list.  Messages are byte lists. -/
structure MessageHashModel (P R : Type) where
  dimension : Nat
  base : Int
  apply : P → Nat → R → List Nat → List Int

/-- Checksum loop shared verbatim by `WinternitzEncoding._checksum_chunks`
(`inc_encoding/basic_winternitz.py`) and `BasicWinternitzEncoding.encode`
(`inc_encoding/BasicWinternitzEncoding.py`): starting from `s`, repeat
`count` times `cs.append(s % base); s //= base` (Python floor semantics). -/
def lsbLoop (base : Int) : Nat → Int → List Int
  | 0, _ => []
  | k + 1, s => s.fmod base :: lsbLoop base k (s.fdiv base)

/-- `WinternitzEncoding._checksum_chunks` (`inc_encoding/basic_winternitz.py`
lines 37–45): `s = sum(base-1 - c for c in msg_chunks)`, then emit
`num_checksum_chains` digits via the `s % base` / `s //= base` loop. -/
def checksum_chunks (base : Int) (numChecksum : Nat) (msgChunks : List Int) : List Int :=
  lsbLoop base numChecksum (msgChunks.foldl (fun acc c => acc + ((base - 1) - c)) 0)

/-- `WinternitzEncoding.apply` (`inc_encoding/basic_winternitz.py` lines
47–62).  `BASE = 1 << chunk_size`; `NUM_CHAINS = message_hash.DIMENSION`;
the two `assert`s check the chunk count and that every chunk lies in
`[0, BASE)`; the result is `msg_chunks + checksum`. -/
def winternitz_apply {P R : Type} (mh : MessageHashModel P R)
    (chunk_size num_checksum : Nat) (parameter : P) (epoch : Nat)
    (randomness : R) (message : List Nat) : Except PyErr (List Int) :=
  let base : Int := 2 ^ chunk_size
  let msgChunks := mh.apply parameter epoch randomness message
  if msgChunks.length ≠ mh.dimension then .error .assertionError
  else if ¬ (∀ c ∈ msgChunks, 0 ≤ c ∧ c < base) then .error .assertionError
  else .ok (msgChunks ++ checksum_chunks base num_checksum msgChunks)

/-- Fuel-driven helper computing the binary length of `m` (the fuel only
bounds the recursion depth; `m` itself is always a sufficient bound). -/
def bitLenAux : Nat → Nat → Nat
  | 0, _ => 0
  | fuel + 1, m => if m = 0 then 0 else bitLenAux fuel (m / 2) + 1

/-- Python's `int.bit_length()` on a non-negative integer: the number of
binary digits, with `bit_length(0) = 0`. -/
def bit_length (n : Nat) : Nat := bitLenAux n n

/-- Number of checksum digits of `BasicWinternitzEncoding` (its `__init__`):
`checksum_bits = (n0*(base-1)).bit_length(); n1 = ceil(checksum_bits /
w_exp)`; the ceiling of the true division is `(bits + w_exp - 1) / w_exp`
for positive `w_exp`. -/
def bwe_n1 (n0 w_exp : Nat) : Nat :=
  (bit_length (n0 * (2 ^ w_exp - 1)) + w_exp - 1) / w_exp

/-- Tail of `BasicWinternitzEncoding.encode`
(`inc_encoding/BasicWinternitzEncoding.py` lines 116–127), taking the
already-bit-sliced message digits as input: `checksum = n0*(base-1) -
sum(digits)`; run the `% base` / `//= base` loop `n1` times; raise
`EncodingError("Checksum overflow")` if a residual remains; return
`digits + cs[::-1]` — note the reversal. -/
def bwe_encode_tail (n0 w_exp : Nat) (digits : List Int) : Except PyErr (List Int) :=
  let base : Int := 2 ^ w_exp
  let n1 := bwe_n1 n0 w_exp
  let checksum : Int := (n0 : Int) * (base - 1) - digits.sum
  let cs := lsbLoop base n1 checksum
  if checksum.fdiv (base ^ n1) ≠ 0 then .error .encodingError
  else .ok (digits ++ cs.reverse)

/-- `TargetSumEncoding.apply` (`inc_encoding/target_sum.py` lines 34–45):
return the message-hash chunks after checking only their count and range.
As the source comment itself states, "The target sum is *not* enforced
here"; the `targetSum` field of the dataclass is unused by `apply`. -/
def target_sum_apply {P R : Type} (mh : MessageHashModel P R) (targetSum : Int)
    (parameter : P) (epoch : Nat) (randomness : R) (message : List Nat) :
    Except PyErr (List Int) :=
  let _ := targetSum
  let chunks := mh.apply parameter epoch randomness message
  if chunks.length ≠ mh.dimension then .error .assertionError
  else if ¬ (∀ c ∈ chunks, 0 ≤ c ∧ c < mh.base) then .error .assertionError
  else .ok chunks

/-- `TargetSumWinternitzEncoding.encode` (`src/target_sum.py` lines 35–59):
`digest = shake_128(message).digest(v)`; `x = [b % base for b in digest]`;
raise `EncodingError("Sum mismatch")` unless `sum(x) == target`.  SHAKE-128
is abstracted as the oracle `shake message v` returning the byte list. -/
def tsw_encode (shake : List Nat → Nat → List Nat) (v w_exp : Nat)
    (target : Int) (message : List Nat) : Except PyErr (List Int) :=
  let base : Int := 2 ^ w_exp
  let digest := shake message v
  let x := digest.map (fun b => (b : Int).fmod base)
  if x.sum ≠ target then .error .encodingError
  else .ok x

end GXMSS

namespace GXMSS

/-! ## Sample message-hash instances used to evaluate the encodings on
concrete inputs.  The encoding classes are generic over the message hash
(`message_hash` is a constructor argument), so any instance conforming to
the `MessageHash` protocol exercises them. -/

/-- Message hash with `DIMENSION = 4`, `BASE = 4` whose `apply` returns
the all-zero chunk vector. -/
def mhZero4 : MessageHashModel Unit Unit :=
  ⟨4, 4, fun _ _ _ _ => [0, 0, 0, 0]⟩

/-- Message hash with `DIMENSION = 4`, `BASE = 4` whose `apply` returns
the all-(B−1) chunk vector `[3,3,3,3]` of spec scenario 4. -/
def mhThree4 : MessageHashModel Unit Unit :=
  ⟨4, 4, fun _ _ _ _ => [3, 3, 3, 3]⟩

/-- Message hash with `DIMENSION = 2`, `BASE = 4` whose `apply` returns
`[1, 2]`. -/
def mhOneTwo : MessageHashModel Unit Unit :=
  ⟨2, 4, fun _ _ _ _ => [1, 2]⟩

/-- Weighted digit sum `Σ l[k] · base^k` of a digit list read LSB-first,
used to state what value a checksum digit list represents. -/
def wsum (base : Int) (l : List Int) : Int :=
  l.foldr (fun d acc => d + base * acc) 0

/-! ## Sparse Merkle tree (`src/symmetric/tweak_hash_tree.py`)

The tweakable hash is abstracted into `thApply` (its `apply`) and
`treeTweak` (its `tree_tweak`).  The RNG consumed by `rand_domain` is
modelled as a stream `rng : Nat → D` together with a counter threaded
through the construction: the `k`-th draw is `rng k`. -/

/-- `HashTreeLayer` dataclass: `start_index` and the node list. -/
structure HashTreeLayer (D : Type) where
  start_index : Nat
  nodes : List D

/-- `HashTree` dataclass: `depth` and the list of layers (leaves first). -/
structure HashTree (D : Type) where
  depth : Nat
  layers : List (HashTreeLayer D)

/-- `HashTreeOpening` dataclass: the leaf layer's `start_index` and the
co-path (one sibling per level). -/
structure HashTreeOpening (D : Type) where
  start_index : Nat
  co_path : List D

/-- `_get_padded_layer(th, rng, nodes, start_index)`: prepend a fresh
random domain element when `start_index` is odd (storing
`start_index - start_index % 2`), and append one when
`end_index = start_index + len(nodes) - 1` is even (Python's `%` on the
possibly negative `end_index` is floor-based, hence `Int.emod`).  Returns
the layer and the advanced RNG counter. -/
def get_padded_layer {D : Type} (rng : Nat → D) (ctr : Nat) (nodes : List D)
    (start : Nat) : HashTreeLayer D × Nat :=
  let endIdx : Int := (start : Int) + nodes.length - 1
  let withFront : List D := if start % 2 = 1 then rng ctr :: nodes else nodes
  let ctr1 : Nat := if start % 2 = 1 then ctr + 1 else ctr
  let withBack : List D := if endIdx % 2 = 0 then withFront ++ [rng ctr1] else withFront
  let ctr2 : Nat := if endIdx % 2 = 0 then ctr1 + 1 else ctr1
  (⟨start - start % 2, withBack⟩, ctr2)

/-- Parent-building loop of `HashTreeBuilder.new`: for `j in range(0,
len(nodes), 2)` hash `[nodes[j], nodes[j+1]]` under
`tree_tweak(level + 1, j//2 + start_index//2)`; `pairIdx` is `j//2` and
`halfStart` is `start_index//2`.  An odd-length node list makes
`nodes[j+1]` raise `IndexError` (never reached on padded layers). -/
def build_parents {P T D : Type} (thApply : P → T → List D → D)
    (treeTweak : Nat → Nat → T) (parameter : P) (level halfStart : Nat) :
    Nat → List D → Except PyErr (List D)
  | _, [] => .ok []
  | _, [_] => .error .indexError
  | pairIdx, l :: r :: rest => do
      let tail ← build_parents thApply treeTweak parameter level halfStart (pairIdx + 1) rest
      .ok (thApply parameter (treeTweak (level + 1) (pairIdx + halfStart)) [l, r] :: tail)

/-- Level loop of `HashTreeBuilder.new` (`for level in range(depth)`):
from the current layer compute the parents, pad them at
`start_index // 2`, and recurse; returns the list of layers above the
current one together with the final RNG counter. -/
def build_layers {P T D : Type} (thApply : P → T → List D → D)
    (treeTweak : Nat → Nat → T) (parameter : P) (rng : Nat → D) :
    Nat → Nat → HashTreeLayer D → Nat →
    Except PyErr (List (HashTreeLayer D) × Nat)
  | _, 0, _, ctr => .ok ([], ctr)
  | level, fuel + 1, cur, ctr => do
      let ps ← build_parents thApply treeTweak parameter level (cur.start_index / 2) 0 cur.nodes
      let padded := get_padded_layer rng ctr ps (cur.start_index / 2)
      let rest ← build_layers thApply treeTweak parameter rng (level + 1) fuel padded.1 padded.2
      .ok (padded.1 :: rest.1, rest.2)

/-- `HashTreeBuilder.new(rng, depth, start_index, parameter, leaf_hashes)`:
assert the leaves fit below `2^depth`, pad the leaf layer, then build
`depth` further layers. -/
def hash_tree_new {P T D : Type} (thApply : P → T → List D → D)
    (treeTweak : Nat → Nat → T) (rng : Nat → D) (parameter : P)
    (depth start_index : Nat) (leaf_hashes : List D) :
    Except PyErr (HashTree D) :=
  if start_index + leaf_hashes.length > 2 ^ depth then .error .assertionError
  else do
    let p0 := get_padded_layer rng 0 leaf_hashes start_index
    let rest ← build_layers thApply treeTweak parameter rng 0 depth p0.1 p0.2
    .ok ⟨depth, p0.1 :: rest.1⟩

/-- `HashTreeBuilder.root(tree)`: assert the layer list is non-empty and
return `tree.layers[-1].nodes[0]`. -/
def hash_tree_root {D : Type} (tree : HashTree D) : Except PyErr D :=
  match tree.layers.getLast? with
  | none => .error .assertionError
  | some last => listGetPy last.nodes 0

/-- Sibling-collection loop of `HashTreeBuilder.path`: at each of
`tree.depth` levels record `layers[l].nodes[(pos ^ 1) - layers[l].start_index]`
(Python list indexing, so a negative position wraps) and halve the
position. -/
def path_loop {D : Type} : Nat → List (HashTreeLayer D) → Nat → Except PyErr (List D)
  | 0, _, _ => .ok []
  | _ + 1, [], _ => .error .indexError
  | fuel + 1, L :: rest, pos => do
      let sib ← listGetPy L.nodes (((pos ^^^ 1 : Nat) : Int) - L.start_index)
      let tail ← path_loop fuel rest (pos / 2)
      .ok (sib :: tail)

/-- `HashTreeBuilder.path(tree, position)`: assert the position lies in the
leaf layer's stored range, then collect the co-path. -/
def hash_tree_path {D : Type} (tree : HashTree D) (position : Nat) :
    Except PyErr (HashTreeOpening D) :=
  match tree.layers with
  | [] => .error .assertionError
  | L0 :: _ =>
    if position < L0.start_index then .error .assertionError
    else if position ≥ L0.start_index + L0.nodes.length then .error .assertionError
    else do
      let sibs ← path_loop tree.depth tree.layers position
      .ok ⟨L0.start_index, sibs⟩

/-- Climbing loop of `hash_tree_verify`: at level `l` the children are
`[current, co_path[l]]` when the position is even and `[co_path[l],
current]` otherwise; the position is halved before the parent tweak
`tree_tweak(l + 1, position)` is applied. -/
def verify_climb {P T D : Type} (thApply : P → T → List D → D)
    (treeTweak : Nat → Nat → T) (parameter : P) :
    List D → Nat → Nat → D → D
  | [], _, _, cur => cur
  | c :: rest, l, pos, cur =>
      let children : List D := if pos % 2 = 0 then [cur, c] else [c, cur]
      verify_climb thApply treeTweak parameter rest (l + 1) (pos / 2)
        (thApply parameter (treeTweak (l + 1) (pos / 2)) children)

/-- `hash_tree_verify(th, parameter, root, position, leaf, opening)`:
`depth = len(opening.co_path)`, assert `opening.start_index ≤ position <
opening.start_index + 2^depth`, climb from `leaf`, and compare the result
with `root`. -/
def hash_tree_verify {P T D : Type} [DecidableEq D]
    (thApply : P → T → List D → D) (treeTweak : Nat → Nat → T)
    (parameter : P) (root : D) (position : Nat) (leaf : D)
    (opening : HashTreeOpening D) : Except PyErr Bool :=
  let depth := opening.co_path.length
  if position < opening.start_index then .error .assertionError
  else if position ≥ opening.start_index + 2 ^ depth then .error .assertionError
  else .ok (decide (verify_climb thApply treeTweak parameter opening.co_path 0 position leaf = root))

/-- Combined build–open–verify pipeline used to state claim C8: build the
tree over `leaf_hashes`, open it at `position`, read the root, fetch the
leaf `leaf_hashes[position - start_index]`, verify, and report whether the
opening has `depth` co-path entries and verification succeeded. -/
def c8_run {P T D : Type} [DecidableEq D] (thApply : P → T → List D → D)
    (treeTweak : Nat → Nat → T) (rng : Nat → D) (parameter : P)
    (depth start_index : Nat) (leaf_hashes : List D) (position : Nat) :
    Except PyErr Bool := do
  let tree ← hash_tree_new thApply treeTweak rng parameter depth start_index leaf_hashes
  let opening ← hash_tree_path tree position
  let root ← hash_tree_root tree
  let leaf ← listGetPy leaf_hashes ((position : Int) - start_index)
  let ok ← hash_tree_verify thApply treeTweak parameter root position leaf opening
  .ok (decide (opening.co_path.length = depth) && ok)

/-! ## Signature-scheme glue (`src/signature/generalized_xmss/__init__.py`)

`GeneralizedXMSSSignatureScheme` is written against the Rust API and its
method bodies perform calls Python rejects at runtime; the embedding
models each such call by throwing the error Python raises there (details
in the doc comments of `xmss_key_gen`, `xmss_sign`, `xmss_verify`). -/

/-- `GeneralizedXMSSPublicKey` dataclass. -/
structure GXPublicKey (Par D : Type) where
  root : D
  parameter : Par

/-- `GeneralizedXMSSSecretKey` dataclass. -/
structure GXSecretKey (Key Par D : Type) where
  prf_key : Key
  tree : HashTree D
  parameter : Par
  activation_epoch : Nat
  num_active_epochs : Nat

/-- `GeneralizedXMSSSignature` dataclass. -/
structure GXSignature (R D : Type) where
  path : HashTreeOpening D
  rho : R
  hashes : List D

/-- `GeneralizedXMSSSignatureScheme.key_gen(activation_epoch,
num_active_epochs)` with `LOG_LIFETIME = logLifetime` and `IE.DIMENSION =
dimension`.  After the lifetime assertion, `TH.rand_parameter` and
`PRF.key_gen` succeed, and then:

* if both the epoch loop and the chain loop are non-empty, the first chain
  start `cls.PRF.apply(prf_key, epoch, idx)` passes three positional
  arguments to a PRF `apply` whose output-length parameter is keyword-only
  (`ShaPRF.apply(key, epoch, index, *, output_length)` in
  `symmetric/prf/sha.py`, likewise `ShakePRFtoF.apply` in
  `symmetric/prf/shake_to_field.py`), so Python raises `TypeError`
  (were that call repaired, `chain(...)` is also invoked without its
  required `th_class` argument, again a `TypeError`);
* otherwise execution reaches `HashTree.new(...)`, and the `HashTree`
  dataclass has no attribute `new` (the constructor lives on
  `HashTreeBuilder`), so Python raises `AttributeError`.

Hence `key_gen` never returns a key pair. -/
def xmss_key_gen (Par Key D : Type) (logLifetime dimension : Nat)
    (activation_epoch num_active_epochs : Nat) :
    Except PyErr (GXPublicKey Par D × GXSecretKey Key Par D) :=
  if activation_epoch + num_active_epochs > 2 ^ logLifetime then
    .error .assertionError
  else if num_active_epochs ≠ 0 ∧ dimension ≠ 0 then .error .typeError
  else .error .attributeError

/-- `GeneralizedXMSSSignatureScheme.sign(sk, epoch, message)`: after the
epoch-range assertion, the very next statement `path = sk.tree.path(epoch)`
raises `AttributeError` — `sk.tree` is a `HashTree` dataclass, which has no
`path` method (`path` is a static method of `HashTreeBuilder`).  The
message is never inspected, so no message-length check ever runs and
`InvalidMessageLength` is never raised.  (Were the dispatch repaired, the
encoding attempt `cls.IE.rand` / `cls.IE.encode` would also fail —
`WinternitzEncoding` and `TargetSumEncoding` define `apply`, not
`rand`/`encode` — and the `except Exception` retry loop would convert that
into `SigningError(UNLUCKY_FAILURE)`, still never `InvalidMessageLength`.) -/
def xmss_sign {Key Par R D : Type} (sk : GXSecretKey Key Par D)
    (epoch : Nat) (message : List Nat) : Except PyErr (GXSignature R D) :=
  let _ := message
  if ¬ (sk.activation_epoch ≤ epoch ∧
        epoch < sk.activation_epoch + sk.num_active_epochs) then
    .error .assertionError
  else .error .attributeError

/-- `GeneralizedXMSSSignatureScheme.verify(pk, epoch, message, sig)` with
`LOG_LIFETIME = logLifetime` and `IE.DIMENSION = dimension`.  The call
`cls.IE.encode(pk.parameter, message, sig.rho, epoch)` sits inside
`try/except Exception: return False`; its behaviour is abstracted as the
parameter `encode` (for every encoding shipped in the repository the call
raises — `WinternitzEncoding` and `TargetSumEncoding` have no `encode`
attribute (`AttributeError`), while `BasicWinternitzEncoding.encode` and
`TargetSumWinternitzEncoding.encode` accept a single positional argument
(`TypeError`) — so `encode` is then the constant thrower).  If `encode`
were to succeed, the codeword length is checked against `DIMENSION`, and
the subsequent `chain(...)` call (6 positional arguments for a 7-parameter
function missing `th_class`) — or, for an empty codeword, the
`hash_tree_verify(...)` call (5 arguments for 6 parameters) — raises
`TypeError` outside any handler. -/
def xmss_verify {Par R D : Type} (logLifetime dimension : Nat)
    (encode : Par → List Nat → R → Nat → Except PyErr (List Int))
    (pk : GXPublicKey Par D) (epoch : Nat) (message : List Nat)
    (sig : GXSignature R D) : Except PyErr Bool :=
  if epoch ≥ 2 ^ logLifetime then .ok false
  else
    match encode pk.parameter message sig.rho epoch with
    | .error _ => .ok false
    | .ok x =>
        if x.length ≠ dimension then .ok false
        else .error .typeError

/-! ## Hypercube layer enumeration (`src/hypercube.py`)

All quantities are Python ints, modelled as `Int` (sizes and prefix sums
are stored as `Int` so that subtraction is exact).  List subscripts use
`listGetPy` (Python semantics, raising `IndexError` out of range). -/

/-- `MAX_DIMENSION = 100`. -/
def MAX_DIMENSION : Nat := 100

/-- `LayerInfo` dataclass: per-layer sizes and inclusive prefix sums. -/
structure LayerInfo where
  sizes : List Int
  prefix_sums : List Int

/-- `itertools.accumulate`: inclusive prefix sums. -/
def accumulate_from (acc : Int) : List Int → List Int
  | [] => []
  | x :: r => (acc + x) :: accumulate_from (acc + x) r

/-- Inclusive prefix sums of a list (Python `list(accumulate(xs))`). -/
def accumulate (xs : List Int) : List Int := accumulate_from 0 xs

/-- `LayerInfo.sizes_sum_in_range(start, end)`: `0` for an empty range,
otherwise `prefix_sums[end] - (prefix_sums[start-1] if start > 0 else 0)`,
with Python list indexing (out-of-range subscripts raise `IndexError`). -/
def sizes_sum_in_range (info : LayerInfo) (a b : Int) : Except PyErr Int :=
  if a > b then .ok 0
  else do
    let total ← listGetPy info.prefix_sums b
    let before ← if a > 0 then listGetPy info.prefix_sums (a - 1) else .ok 0
    .ok (total - before)

/-- Body of the `for d in range(0, max_d+1)` loop of
`_prepare_layer_info`: candidate range `a_i ∈ [max(1, w-d), min(w, w -
max(0, (w-1)-d))]` (the `Nat` truncated subtractions agree with Python's
`max(1, ·)` / `max(0, ·)` clampings), empty range contributes `0`,
otherwise `prev.sizes_sum_in_range(d-(w-a_start), d-(w-a_end))`. -/
def layer_size_at (w : Nat) (prev : LayerInfo) (d : Nat) : Except PyErr Int :=
  let a_start : Nat := max 1 (w - d)
  let a_end : Nat := min w (w - max 0 ((w - 1) - d))
  if a_start > a_end then .ok 0
  else sizes_sum_in_range prev ((d : Int) - ((w : Int) - a_start))
    ((d : Int) - ((w : Int) - a_end))

/-- Size list of dimension `v` built from the previous dimension's info:
`for d in range(0, v*(w-1)+1)` (a Python range of negative length is
empty, hence the `Int.toNat` clamp). -/
def layer_sizes (w : Nat) (prev : LayerInfo) (v : Nat) : Except PyErr (List Int) :=
  (List.range ((v : Int) * ((w : Int) - 1) + 1).toNat).mapM (layer_size_at w prev)

/-- Loop `for v in range(2, MAX_DIMENSION+1)` of `_prepare_layer_info`,
carrying the current dimension `v` and the previous `LayerInfo`. -/
def prepare_go (w : Nat) : Nat → Nat → LayerInfo → Except PyErr (List LayerInfo)
  | _, 0, _ => .ok []
  | v, count + 1, prev => do
      let sizes ← layer_sizes w prev v
      let info : LayerInfo := ⟨sizes, accumulate sizes⟩
      let rest ← prepare_go w (v + 1) count info
      .ok (info :: rest)

/-- `_prepare_layer_info(w)` (also the body of `_get_layer_data`, whose
cache is semantically transparent): info for `v = 0` is `([1], [1])`, for
`v = 1` it is `([1]*w, accumulate)`, and dimensions `2..MAX_DIMENSION` are
built iteratively. -/
def prepare_layer_info (w : Nat) : Except PyErr (List LayerInfo) := do
  let info0 : LayerInfo := ⟨[1], [1]⟩
  let info1 : LayerInfo := ⟨List.replicate w 1, accumulate (List.replicate w 1)⟩
  let rest ← prepare_go w 2 (MAX_DIMENSION - 1) info1
  .ok (info0 :: info1 :: rest)

/-- Candidate search `for a_i in range(a_start, a_end+1)` inside
`map_to_vertex`: each candidate looks up `prev = layer_data[i-1]` and
`sz = prev.sizes[d_curr - (w - a_i)]`; `x_curr < sz` breaks with the
candidate, otherwise `x_curr -= sz`; falling off the range leaves
`found = None`. -/
def mtv_find (w : Nat) (allInfo : List LayerInfo) (i : Nat) (d_curr : Int) :
    Int → Int → Nat → Except PyErr (Option (Int × Int))
  | _, _, 0 => .ok none
  | a_i, x_curr, count + 1 => do
      let prev ← listGetPy allInfo ((i : Int) - 1)
      let sz ← listGetPy prev.sizes (d_curr - ((w : Int) - a_i))
      if x_curr < sz then .ok (some (a_i, x_curr))
      else mtv_find w allInfo i d_curr (a_i + 1) (x_curr - sz) count

/-- Loop `for i in range(v, 0, -1)` of `map_to_vertex`, producing the
digit list in emission order (reversed at the end by the caller): at
`i = 1` the last coordinate is `d_curr` itself; otherwise search the
candidate range, `assert found is not None`, emit `found - 1` and record
`d_curr -= (w - found)`. -/
def mtv_loop (w : Nat) (allInfo : List LayerInfo) : Nat → Int → Int →
    Except PyErr (List Int)
  | 0, _, _ => .ok []
  | 1, _, d_curr => .ok [d_curr]
  | i + 2, x_curr, d_curr => do
      let a_start : Int := max 1 ((w : Int) - d_curr)
      let a_end : Int := min (w : Int) ((w : Int) - max 0 (((w : Int) - 1) - d_curr))
      let res ← mtv_find w allInfo (i + 2) d_curr a_start x_curr (a_end + 1 - a_start).toNat
      match res with
      | none => .error .assertionError
      | some found => do
          let rest ← mtv_loop w allInfo (i + 1) found.2 (d_curr - ((w : Int) - found.1))
          .ok ((found.1 - 1) :: rest)

/-- `map_to_vertex(w, v, d, x)`: fetch the layer data (computed eagerly for
all dimensions up to `MAX_DIMENSION`), run the two `assert`s, then the
digit loop, and reverse the emitted digits. -/
def map_to_vertex (w v : Nat) (d x : Int) : Except PyErr (List Int) := do
  let allInfo ← prepare_layer_info w
  let info ← listGetPy allInfo (v : Int)
  if ¬ (0 ≤ d ∧ d ≤ (v : Int) * ((w : Int) - 1)) then .error .assertionError
  else do
    let szd ← listGetPy info.sizes d
    if ¬ (0 ≤ x ∧ x < szd) then .error .assertionError
    else do
      let out ← mtv_loop w allInfo v x d
      .ok out.reverse

/-- Loop `for i in range(v-1, -1, -1)` of `map_to_integer` (the counter
`c + 1` corresponds to `i = c`); each iteration re-reads the layer data
(`_get_layer_data(w)[v-i-1]`), which is recomputed here since the Python
cache is semantically transparent. -/
def mti_loop (w v : Nat) (a : List Int) : Nat → Int → Int →
    Except PyErr (Int × Int)
  | 0, x_curr, d_curr => .ok (x_curr, d_curr)
  | c + 1, x_curr, d_curr => do
      let i := c
      let ai ← listGetPy a (i : Int)
      let ji := ((w : Int) - 1) - ai
      let d2 := d_curr + ji
      let j_start : Int := max 0 (d2 - ((w : Int) - 1) * ((v : Int) - i - 1))
      let allInfo ← prepare_layer_info w
      let info ← listGetPy allInfo ((v : Int) - i - 1)
      let s ← sizes_sum_in_range info (d2 - ji + 1) (d2 - j_start)
      mti_loop w v a c (x_curr + s) d2

/-- `map_to_integer(w, v, d, a)`: `assert len(a) == v`, `assert sum(a) ==
d`, accumulate over the loop, and finally `assert d_curr == d`. -/
def map_to_integer (w v : Nat) (d : Int) (a : List Int) : Except PyErr Int :=
  if a.length ≠ v then .error .assertionError
  else if a.sum ≠ d then .error .assertionError
  else do
    let res ← mti_loop w v a v 0 0
    if res.2 ≠ d then .error .assertionError
    else .ok res.1

end GXMSS

namespace GXMSS

/-! # Theorems -/

/-- Claim C7 (confirmed): `chain(parameter, epoch, chain_index, start_pos,
steps, start)` returns `start` unchanged for `steps = 0`, and for
`steps ≥ 1` applies the tweakable hash `steps` times, the `j`-th
application (`j = 1..steps`) hashing the single-element list holding the
previous value under the tweak `chain_tweak(epoch, chain_index,
start_pos + j)`.  `chainSpecRec` is exactly that recursion. -/
theorem chain_eq_chainSpecRec {P T D : Type} (thApply : P → T → List D → D)
    (chainTweak : Nat → Nat → Nat → T) (parameter : P)
    (epoch chainIndex startPos : Nat) (steps : Nat) (start : D) :
    chain thApply chainTweak parameter epoch chainIndex startPos steps start =
      chainSpecRec thApply chainTweak parameter epoch chainIndex startPos steps start := by
  induction steps with
  | zero => rfl
  | succ n ih =>
      unfold chain at ih ⊢
      rw [List.range_succ, List.foldl_append, List.foldl_cons, List.foldl_nil, ih]
      rfl

/-! ### Arithmetic helper lemmas for the checksum loops -/

theorem int_emod_pow_succ (b : Int) (hb : 0 < b) (n : Nat) (s : Int) :
    s % b ^ (n + 1) = b * ((s / b) % b ^ n) + s % b := by
  have hbn : (0 : Int) < b ^ n := pow_pos hb n
  have hbsn : (0 : Int) < b ^ (n + 1) := pow_pos hb (n + 1)
  have h1 := Int.ediv_add_emod s b
  have h2 := Int.ediv_add_emod (s / b) (b ^ n)
  have hr0 : 0 ≤ s % b := Int.emod_nonneg s hb.ne'
  have hr1 : s % b < b := Int.emod_lt_of_pos s hb
  have hq0 : 0 ≤ (s / b) % b ^ n := Int.emod_nonneg _ hbn.ne'
  have hq1 : (s / b) % b ^ n < b ^ n := Int.emod_lt_of_pos _ hbn
  calc s % b ^ (n + 1)
      = (b * (s / b) + s % b) % b ^ (n + 1) := by rw [h1]
    _ = (b * (b ^ n * (s / b / b ^ n) + (s / b) % b ^ n) + s % b) % b ^ (n + 1) := by
          rw [h2]
    _ = ((b * ((s / b) % b ^ n) + s % b) + b ^ (n + 1) * (s / b / b ^ n)) % b ^ (n + 1) := by
          ring_nf
    _ = (b * ((s / b) % b ^ n) + s % b) % b ^ (n + 1) :=
          Int.add_mul_emod_self_left _ _ _
    _ = b * ((s / b) % b ^ n) + s % b := by
          refine Int.emod_eq_of_lt ?_ ?_
          · have := mul_nonneg hb.le hq0
            omega
          · have hle : (s / b) % b ^ n ≤ b ^ n - 1 := by omega
            have : b * ((s / b) % b ^ n) ≤ b * (b ^ n - 1) := by
              exact mul_le_mul_of_nonneg_left hle hb.le
            have hpow : b * (b ^ n - 1) = b ^ (n + 1) - b := by ring_nf
            omega

theorem wsum_lsbLoop (b : Int) (hb : 0 < b) :
    ∀ (n : Nat) (s : Int), wsum b (lsbLoop b n s) = s % b ^ n := by
  intro n
  induction n with
  | zero =>
      intro s
      simp [wsum, lsbLoop, Int.emod_one]
  | succ n ih =>
      intro s
      have hfd : s.fdiv b = s / b := Int.fdiv_eq_ediv s hb.le
      have hfm : s.fmod b = s % b := Int.fmod_eq_emod s hb.le
      simp only [wsum, lsbLoop, List.foldr_cons, hfd, hfm]
      have := ih (s / b)
      simp only [wsum] at this
      rw [this, int_emod_pow_succ b hb n s]
      ring

theorem int_ediv_ediv (a b c : Int) (hb : 0 < b) (hc : 0 < c) :
    a / b / c = a / (b * c) := by
  have hbc : (0 : Int) < b * c := mul_pos hb hc
  have hr0 : 0 ≤ a % b := Int.emod_nonneg a hb.ne'
  have hr1 : a % b < b := Int.emod_lt_of_pos a hb
  have hq0 : 0 ≤ (a / b) % c := Int.emod_nonneg _ hc.ne'
  have hq1 : (a / b) % c < c := Int.emod_lt_of_pos _ hc
  have key : (b * ((a / b) % c) + a % b) + (b * c) * (a / b / c) = a := by
    have h1 := Int.ediv_add_emod a b
    have h2 := Int.ediv_add_emod (a / b) c
    calc (b * ((a / b) % c) + a % b) + (b * c) * (a / b / c)
        = b * (c * (a / b / c) + (a / b) % c) + a % b := by ring
      _ = b * (a / b) + a % b := by rw [h2]
      _ = a := h1
  have hrange1 : 0 ≤ b * ((a / b) % c) + a % b := by
    have := mul_nonneg hb.le hq0
    omega
  have hrange2 : b * ((a / b) % c) + a % b < b * c := by
    have hle : (a / b) % c ≤ c - 1 := by omega
    have : b * ((a / b) % c) ≤ b * (c - 1) := mul_le_mul_of_nonneg_left hle hb.le
    have hbc1 : b * (c - 1) = b * c - b := by ring
    omega
  have := (Int.ediv_emod_unique (a := a) (b := b * c)
    (q := a / b / c) (r := b * ((a / b) % c) + a % b) hbc).mpr
    ⟨key, hrange1, hrange2⟩
  exact this.1.symm

theorem lsbLoop_get (b : Int) (hb : 0 < b) :
    ∀ (n : Nat) (s : Int) (k : Nat), k < n →
      (lsbLoop b n s).get? k = some ((s / b ^ k) % b) := by
  intro n
  induction n with
  | zero => intro s k hk; omega
  | succ n ih =>
      intro s k hk
      match k with
      | 0 =>
          simp only [lsbLoop, List.get?_cons_zero, pow_zero, Int.ediv_one]
          rw [Int.fmod_eq_emod s hb.le]
      | k + 1 =>
          simp only [lsbLoop, List.get?_cons_succ]
          rw [ih (s.fdiv b) k (by omega), Int.fdiv_eq_ediv s hb.le,
            int_ediv_ediv s b (b ^ k) hb (pow_pos hb k), ← pow_succ']

theorem foldl_base_sub (b : Int) (L : List Int) :
    ∀ (a : Int), L.foldl (fun acc c => acc + ((b - 1) - c)) a =
      a + L.length * (b - 1) - L.sum := by
  induction L with
  | nil => intro a; simp
  | cons x xs ih =>
      intro a
      simp only [List.foldl_cons, List.length_cons, List.sum_cons, ih]
      push_cast
      ring

/-! ### Claim C2: target-sum encoding -/

/-- Claim C2, counterexample: `TargetSumEncoding.apply`
(`inc_encoding/target_sum.py`) returns the message-hash chunk vector
without enforcing the target sum.  With a message hash returning `[1, 2]`
and `target_sum = 108` (the W2 `TARGET_SUM_NO_OFF` value of
`instantiations_sha.py`), it returns `[1, 2]` whose digit sum `3 ≠ 108`,
with no sum-mismatch error. -/
theorem target_sum_apply_cex :
    target_sum_apply mhOneTwo 108 () 0 () [] = .ok [1, 2] ∧
    ([1, 2] : List Int).sum ≠ 108 := by
  exact ⟨rfl, by decide⟩

/-- Claim C2 (amended): `TargetSumWinternitzEncoding.encode`
(`src/target_sum.py`) never returns a digit vector whose sum differs from
the target: whenever it returns a vector, the digit sum is exactly
`target` (otherwise it raises `EncodingError("Sum mismatch")`).
`TargetSumEncoding.apply` (`inc_encoding/target_sum.py`), by contrast,
returns the message-hash chunks without enforcing the sum (see the
counterexample). -/
theorem tsw_encode_sum_eq_target (shake : List Nat → Nat → List Nat)
    (v w_exp : Nat) (target : Int) (message : List Nat) (x : List Int)
    (h : tsw_encode shake v w_exp target message = .ok x) :
    x.sum = target := by
  simp only [tsw_encode] at h
  split at h
  · exact absurd h (by simp)
  · rename_i hsum
    obtain rfl : _ = x := by exact Except.ok.inj h
    exact not_ne_iff.mp hsum

/-- Witness for C2's theorem at a concrete input: the constant-byte SHAKE
oracle `fun _ n => replicate n 1` with `v = 3`, `w_exp = 2`, `target = 3`
encodes to `[1, 1, 1]`, whose sum is the target. -/
theorem tsw_encode_sum_eq_target_witness :
    List.sum ([1, 1, 1] : List Int) = 3 :=
  tsw_encode_sum_eq_target (fun _ n => List.replicate n 1) 3 2 3 [] [1, 1, 1] rfl

/-! ### Claim C5: Winternitz digit sum -/

/-- Claim C5, counterexample: with the all-zero message-hash output over
`NUM_MSG_CHAINS = 4`, `B = 4`, `N1 = 2` checksum chains, the codeword
produced by `WinternitzEncoding.apply` is `[0,0,0,0,0,3]` (the checksum
digits are the base-4 digits of `S = 12`, namely `[0, 3]`), whose digit
sum `3` differs from `NUM_MSG_CHAINS * (B - 1) = 12`. -/
theorem winternitz_digit_sum_cex :
    winternitz_apply mhZero4 2 2 () 0 () [] = .ok [0, 0, 0, 0, 0, 3] ∧
    ([0, 0, 0, 0, 0, 3] : List Int).sum ≠ 4 * (4 - 1) := by
  exact ⟨rfl, by decide⟩

/-- Claim C5 (amended): every codeword returned by
`WinternitzEncoding.apply` is the message chunks followed by the checksum
chunks, and the checksum chunks, read LSB-first as a base-`B` number,
represent `S = Σᵢ (B−1−chunks[i])` reduced mod `B^N1`; the plain digit sum
of the codeword need not equal `NUM_MSG_CHAINS·(B−1)`. -/
theorem winternitz_checksum_represents {P R : Type} (mh : MessageHashModel P R)
    (chunk_size num_checksum : Nat) (parameter : P) (epoch : Nat)
    (randomness : R) (message : List Nat) (x : List Int)
    (h : winternitz_apply mh chunk_size num_checksum parameter epoch randomness message
        = .ok x) :
    x = mh.apply parameter epoch randomness message ++
        checksum_chunks (2 ^ chunk_size) num_checksum
          (mh.apply parameter epoch randomness message) ∧
    wsum (2 ^ chunk_size)
        (checksum_chunks (2 ^ chunk_size) num_checksum
          (mh.apply parameter epoch randomness message)) =
      ((mh.apply parameter epoch randomness message).foldl
          (fun acc c => acc + ((2 ^ chunk_size - 1) - c)) 0) %
        (2 ^ chunk_size) ^ num_checksum := by
  have hb : (0 : Int) < 2 ^ chunk_size := by positivity
  constructor
  · simp only [winternitz_apply] at h
    split at h
    · exact absurd h (by simp)
    · split at h
      · exact absurd h (by simp)
      · exact (Except.ok.inj h).symm
  · exact wsum_lsbLoop (2 ^ chunk_size) hb num_checksum _

/-- Witness for C5's theorem at the concrete all-zero message hash. -/
theorem winternitz_checksum_represents_witness :
    ([0, 0, 0, 0, 0, 3] : List Int) = mhZero4.apply () 0 () [] ++
        checksum_chunks (2 ^ 2) 2 (mhZero4.apply () 0 () []) ∧
    wsum (2 ^ 2) (checksum_chunks (2 ^ 2) 2 (mhZero4.apply () 0 () [])) =
      ((mhZero4.apply () 0 () []).foldl
          (fun acc c => acc + ((2 ^ 2 - 1) - c)) 0) % (2 ^ 2) ^ 2 :=
  winternitz_checksum_represents mhZero4 2 2 () 0 () [] [0, 0, 0, 0, 0, 3] rfl

/-! ### Claim C6: checksum digit order -/

/-- Claim C6, counterexample: `BasicWinternitzEncoding.encode`
(`inc_encoding/BasicWinternitzEncoding.py`) returns `digits + cs[::-1]`,
i.e. the checksum digits in reversed (MSB-first) order.  With `n0 = 4`,
`w_exp = 2` (so `B = 4`, `N1 = 2`) and message digits `[0,0,0,0]`, the
LSB-first digits of `S = 12` are `[0, 3]`, but the emitted checksum
section is `[3, 0]`, so the codeword is not `chunks ‖ LSB-first digits`. -/
theorem bwe_checksum_order_cex :
    bwe_encode_tail 4 2 [0, 0, 0, 0] = .ok ([0, 0, 0, 0] ++ [3, 0]) ∧
    [3, 0] ≠ checksum_chunks (2 ^ 2) (bwe_n1 4 2) [0, 0, 0, 0] := by
  exact ⟨rfl, by decide⟩

/-- Claim C6 (amended): `WinternitzEncoding._checksum_chunks` emits the
checksum LSB-first — its `k`-th digit is `(S / B^k) mod B` for
`S = Σᵢ(B−1−chunks[i])` — whereas `BasicWinternitzEncoding.encode`
appends the same digit list reversed (MSB-first); on the spec's scenario-4
input (`N0 = 4`, `N1 = 2`, `B = 4`, digits `[3,3,3,3]`, so `S = 0`) both
produce the codeword `[3,3,3,3,0,0]`. -/
theorem checksum_order_characterisation :
    (∀ (w_exp n1 : Nat) (chunks : List Int) (k : Nat), k < n1 →
        (checksum_chunks (2 ^ w_exp) n1 chunks).get? k =
          some (((chunks.foldl (fun acc c => acc + ((2 ^ w_exp - 1) - c)) 0) /
            (2 ^ w_exp) ^ k) % 2 ^ w_exp)) ∧
    (∀ (n0 w_exp : Nat) (digits out : List Int), digits.length = n0 →
        bwe_encode_tail n0 w_exp digits = .ok out →
        out = digits ++ (checksum_chunks (2 ^ w_exp) (bwe_n1 n0 w_exp) digits).reverse) ∧
    winternitz_apply mhThree4 2 2 () 0 () [] = .ok [3, 3, 3, 3, 0, 0] ∧
    bwe_encode_tail 4 2 [3, 3, 3, 3] = .ok [3, 3, 3, 3, 0, 0] := by
  refine ⟨?_, ?_, rfl, rfl⟩
  · intro w_exp n1 chunks k hk
    exact lsbLoop_get (2 ^ w_exp) (by positivity) n1 _ k hk
  · intro n0 w_exp digits out hlen h
    simp only [bwe_encode_tail] at h
    split at h
    · exact absurd h (by simp)
    · have hx := (Except.ok.inj h).symm
      subst hx
      have hS : (n0 : Int) * (2 ^ w_exp - 1) - digits.sum =
          digits.foldl (fun acc c => acc + ((2 ^ w_exp - 1) - c)) 0 := by
        rw [foldl_base_sub (2 ^ w_exp) digits 0, hlen]
        ring
      simp only [checksum_chunks, ← hS]

/-- Witness for C6's theorem at concrete inputs: digit `k = 1` of the
checksum for the all-zero chunks is `(12 / 4) mod 4 = 3`, and
`BasicWinternitzEncoding.encode` on `[0,0,0,0]` appends the reversal. -/
theorem checksum_order_characterisation_witness :
    (checksum_chunks (2 ^ 2) 2 [0, 0, 0, 0]).get? 1 =
      some (((([0, 0, 0, 0] : List Int).foldl
          (fun acc c => acc + ((2 ^ 2 - 1) - c)) 0) / (2 ^ 2) ^ 1) % 2 ^ 2) ∧
    ([0, 0, 0, 0, 3, 0] : List Int) = [0, 0, 0, 0] ++
      (checksum_chunks (2 ^ 2) (bwe_n1 4 2) [0, 0, 0, 0]).reverse :=
  ⟨checksum_order_characterisation.1 2 2 [0, 0, 0, 0] 1 (by decide),
   checksum_order_characterisation.2.1 4 2 [0, 0, 0, 0] [0, 0, 0, 0, 3, 0] rfl rfl⟩

/-! ### Claim C1: keygen–sign–verify round trip -/

/-- Claim C1 (code bug): `GeneralizedXMSSSignatureScheme.key_gen` never
returns a key pair — it raises `TypeError` at the first PRF chain-start
computation (or `AttributeError` at `HashTree.new` when the loops are
empty) — and `sign` never returns a signature either, so the
keygen–sign–verify round trip required by the claim (and asserted by the
repository's own `test_signature_scheme_correctness`) can never yield
`verify = true`. -/
theorem xmss_round_trip_unreachable (Par Key R D : Type)
    (logLifetime dimension : Nat) :
    (∀ (a n : Nat),
      (xmss_key_gen Par Key D logLifetime dimension a n).isOk = false) ∧
    (∀ (sk : GXSecretKey Key Par D) (epoch : Nat) (message : List Nat),
      (xmss_sign (R := R) sk epoch message).isOk = false) := by
  constructor
  · intro a n
    unfold xmss_key_gen
    split
    · rfl
    · split <;> rfl
  · intro sk epoch message
    unfold xmss_sign
    split <;> rfl

/-! ### Claim C3: verify is total and returns `false` on failure -/

/-- Claim C3 (confirmed): for every public key, epoch, message and
signature value, `verify` returns a boolean and raises no exception, and
every internal failure collapses to `false`.  The hypothesis `henc` states
that the `cls.IE.encode(...)` call always raises, which is the case for
every encoding shipped in the repository (`WinternitzEncoding` /
`TargetSumEncoding` have no `encode` attribute, and the two
`src/target_sum.py` / `BasicWinternitzEncoding` classes take a single
positional argument); the `try/except` converts the exception into
`False`, and the out-of-range-epoch branch returns `False` directly, so
`verify` always returns the boolean `False` and never raises. -/
theorem xmss_verify_total_and_false {Par R D : Type}
    (logLifetime dimension : Nat)
    (encode : Par → List Nat → R → Nat → Except PyErr (List Int))
    (henc : ∀ p m r e, ∃ err, encode p m r e = .error err)
    (pk : GXPublicKey Par D) (epoch : Nat) (message : List Nat)
    (sig : GXSignature R D) :
    xmss_verify logLifetime dimension encode pk epoch message sig = .ok false := by
  unfold xmss_verify
  split
  · rfl
  · obtain ⟨err, he⟩ := henc pk.parameter message sig.rho epoch
    rw [he]

/-- Witness for C3's theorem at a concrete input, with the encode-call
behaviour of the shipped `WinternitzEncoding` (attribute lookup of the
missing `encode` raises `AttributeError`). -/
theorem xmss_verify_total_and_false_witness :
    @xmss_verify Unit Unit Nat 18 72
      (fun _ _ _ _ => .error .attributeError)
      ⟨0, ()⟩ 5 [] ⟨⟨0, []⟩, (), []⟩ = .ok false :=
  xmss_verify_total_and_false 18 72 (fun _ _ _ _ => .error .attributeError)
    (fun _ _ _ _ => ⟨.attributeError, rfl⟩) ⟨0, ()⟩ 5 [] ⟨⟨0, []⟩, (), []⟩

/-! ### Claim C4: message-length validation in `sign` -/

/-- Claim C4 (code bug): `sign` never raises `InvalidMessageLength` — for
any message whatsoever (of any length) it fails before the message is ever
inspected: after the epoch-range assertion, `sk.tree.path(epoch)` raises
`AttributeError` because the `HashTree` dataclass has no `path` method.
The advertised length check (`InvalidMessageLength`'s own docstring:
"Raised if `message` is not exactly MESSAGE_LENGTH bytes") exists only in
the test helper, not in `sign`. -/
theorem xmss_sign_never_invalid_message_length {Key Par R D : Type}
    (sk : GXSecretKey Key Par D) (epoch : Nat) (message : List Nat) :
    xmss_sign (R := R) sk epoch message ≠ .error .invalidMessageLength ∧
    (xmss_sign (R := R) sk epoch message).isOk = false := by
  unfold xmss_sign
  constructor
  · split <;> simp
  · split <;> rfl

/-! ### Sparse Merkle tree lemmas -/

theorem xor_one (p : Nat) : p ^^^ 1 = if p % 2 = 0 then p + 1 else p - 1 := by
  apply Nat.eq_of_testBit_eq
  intro i
  rw [Nat.testBit_xor]
  match i with
  | 0 =>
      simp only [Nat.testBit_zero]
      rcases Nat.mod_two_eq_zero_or_one p with h | h <;> simp [h] <;> omega
  | i + 1 =>
      have h1 : (1 : Nat).testBit (i + 1) = false := by
        rw [Nat.testBit_succ]
        norm_num
      rw [h1]
      rcases Nat.mod_two_eq_zero_or_one p with h | h
      · have h2 : (p + 1) / 2 = p / 2 := by omega
        rw [if_pos h, Nat.testBit_succ, Nat.testBit_succ, h2, Bool.xor_false]
      · have h3 : ¬ (p % 2 = 0) := by omega
        have h2 : (p - 1) / 2 = p / 2 := by omega
        rw [if_neg h3, Nat.testBit_succ, Nat.testBit_succ, h2, Bool.xor_false]

theorem listGetPy_natCast {α : Type} (xs : List α) (j : Nat) (h : j < xs.length) :
    listGetPy xs (j : Int) = .ok (xs.get ⟨j, h⟩) := by
  have hlt : ¬ ((j : Int) < 0) := by omega
  simp only [listGetPy, if_neg hlt]
  rw [dif_pos ⟨by omega, by simpa using h⟩]
  simp

theorem except_bind_ok {ε α β : Type} (a : α) (f : α → Except ε β) :
    (Except.ok (ε := ε) a >>= f) = f a := rfl

theorem pad_start_eq {D : Type} (rng : Nat → D) (ctr : Nat) (nodes : List D)
    (start : Nat) :
    (get_padded_layer rng ctr nodes start).1.start_index = start - start % 2 := rfl

theorem pad_nodes_eq {D : Type} (rng : Nat → D) (ctr : Nat) (nodes : List D)
    (start : Nat) :
    (get_padded_layer rng ctr nodes start).1.nodes =
      (if start % 2 = 1 then [rng ctr] else []) ++ nodes ++
      (if ((start : Int) + nodes.length - 1) % 2 = 0 then
        [rng (if start % 2 = 1 then ctr + 1 else ctr)] else []) := by
  simp only [get_padded_layer]
  split_ifs <;> simp

theorem pad_len_even {D : Type} (rng : Nat → D) (ctr : Nat) (nodes : List D)
    (start : Nat) :
    (get_padded_layer rng ctr nodes start).1.nodes.length % 2 = 0 := by
  rw [pad_nodes_eq]
  simp only [List.length_append]
  split_ifs <;> simp <;> omega

theorem pad_start_even {D : Type} (rng : Nat → D) (ctr : Nat) (nodes : List D)
    (start : Nat) :
    (get_padded_layer rng ctr nodes start).1.start_index % 2 = 0 := by
  rw [pad_start_eq]
  omega

theorem pad_covers {D : Type} (rng : Nat → D) (ctr : Nat) (nodes : List D)
    (start : Nat) :
    (get_padded_layer rng ctr nodes start).1.start_index ≤ start ∧
    start + nodes.length ≤ (get_padded_layer rng ctr nodes start).1.start_index +
      (get_padded_layer rng ctr nodes start).1.nodes.length := by
  rw [pad_start_eq, pad_nodes_eq]
  simp only [List.length_append]
  constructor
  · omega
  · split_ifs <;> simp <;> omega

theorem pad_get_within {D : Type} (rng : Nat → D) (ctr : Nat) (nodes : List D)
    (start p : Nat) (h1 : start ≤ p) (h2 : p < start + nodes.length) :
    (get_padded_layer rng ctr nodes start).1.nodes.get?
        (p - (get_padded_layer rng ctr nodes start).1.start_index) =
      nodes.get? (p - start) := by
  rw [pad_start_eq, pad_nodes_eq]
  have hf : (if start % 2 = 1 then [rng ctr] else []).length = start % 2 := by
    split_ifs with h <;> simp <;> omega
  have hidx : p - (start - start % 2) =
      (if start % 2 = 1 then [rng ctr] else []).length + (p - start) := by
    omega
  rw [hidx]
  rw [List.get?_append (by simp only [List.length_append]; omega)]
  rw [List.get?_append_right (by omega)]
  congr 1
  omega

theorem pad_bound {D : Type} (rng : Nat → D) (ctr : Nat) (nodes : List D)
    (start k : Nat) (hn : 1 ≤ nodes.length) (hb : start + nodes.length ≤ 2 ^ k) :
    (get_padded_layer rng ctr nodes start).1.start_index +
      (get_padded_layer rng ctr nodes start).1.nodes.length ≤ max (2 ^ k) 2 := by
  rw [pad_start_eq, pad_nodes_eq]
  simp only [List.length_append]
  match k with
  | 0 =>
      simp only [pow_zero] at hb
      have hstart : start = 0 := by omega
      have hlen : nodes.length = 1 := by omega
      subst hstart
      simp only [hlen]
      norm_num
  | k + 1 =>
      have hev : 2 ^ (k + 1) % 2 = 0 := by
        rw [pow_succ]
        omega
      have h2 : 2 ≤ 2 ^ (k + 1) := by
        have h1 : 1 ≤ 2 ^ k := Nat.one_le_two_pow
        rw [pow_succ]
        omega
      rw [Nat.max_eq_left h2]
      split_ifs <;> simp <;> omega

theorem sib_in_range (s n p : Nat) (hs : s % 2 = 0) (hn : n % 2 = 0)
    (h1 : s ≤ p) (h2 : p < s + n) : s ≤ p ^^^ 1 ∧ p ^^^ 1 < s + n := by
  rw [xor_one]
  split_ifs <;> omega

theorem build_parents_spec {P T D : Type} (f : P → T → List D → D)
    (tw : Nat → Nat → T) (param : P) (level halfStart : Nat) :
    ∀ (q : Nat) (L : List D) (k : Nat), L.length = 2 * q →
    ∃ ps, build_parents f tw param level halfStart k L = .ok ps ∧
      ps.length = q ∧
      ∀ (m : Nat) (a b : D), L.get? (2 * m) = some a → L.get? (2 * m + 1) = some b →
        ps.get? m = some (f param (tw (level + 1) (k + m + halfStart)) [a, b]) := by
  intro q
  induction q with
  | zero =>
      intro L k h
      have hL : L = [] := List.eq_nil_of_length_eq_zero (by omega)
      subst hL
      refine ⟨[], rfl, rfl, ?_⟩
      intro m a b ha _
      simp at ha
  | succ q ih =>
      intro L k h
      match L with
      | [] => simp at h
      | [x] => simp at h; omega
      | x :: y :: rest =>
          have hrest : rest.length = 2 * q := by
            simp only [List.length_cons] at h
            omega
          obtain ⟨ps, hps, hlen, hget⟩ := ih rest (k + 1) hrest
          refine ⟨f param (tw (level + 1) (k + halfStart)) [x, y] :: ps, ?_, ?_, ?_⟩
          · simp only [build_parents, hps, except_bind_ok]
          · simp [hlen]
          · intro m a b ha hb
            match m with
            | 0 =>
                simp only [Nat.mul_zero, List.get?_cons_zero] at ha
                simp only [Nat.mul_zero, Nat.zero_add, List.get?_cons_succ,
                  List.get?_cons_zero] at hb
                obtain rfl : x = a := by injection ha
                obtain rfl : y = b := by injection hb
                simp
            | m + 1 =>
                have ha' : rest.get? (2 * m) = some a := by
                  have : 2 * (m + 1) = (2 * m + 1) + 1 := by omega
                  rw [this, List.get?_cons_succ, List.get?_cons_succ] at ha
                  exact ha
                have hb' : rest.get? (2 * m + 1) = some b := by
                  have : 2 * (m + 1) + 1 = (2 * m + 2) + 1 := by omega
                  rw [this, List.get?_cons_succ, List.get?_cons_succ] at hb
                  exact hb
                rw [List.get?_cons_succ, hget m a b ha' hb']
                have : k + 1 + m + halfStart = k + (m + 1) + halfStart := by omega
                rw [this]

theorem build_pipeline {P T D : Type} (f : P → T → List D → D)
    (tw : Nat → Nat → T) (param : P) (rng : Nat → D) :
    ∀ (k level : Nat) (cur : HashTreeLayer D) (ctr pos : Nat) (val : D),
      cur.start_index % 2 = 0 →
      cur.nodes.length % 2 = 0 →
      cur.start_index ≤ pos →
      pos < cur.start_index + cur.nodes.length →
      cur.nodes.get? (pos - cur.start_index) = some val →
      cur.start_index + cur.nodes.length ≤ max (2 ^ k) 2 →
      ∃ (rest : List (HashTreeLayer D)) (ctr2 : Nat) (sibs : List D)
        (top : HashTreeLayer D),
        build_layers f tw param rng level k cur ctr = .ok (rest, ctr2) ∧
        rest.length = k ∧
        path_loop k (cur :: rest) pos = .ok sibs ∧
        sibs.length = k ∧
        (cur :: rest).getLast? = some top ∧
        top.start_index ≤ pos / 2 ^ k ∧
        pos / 2 ^ k < top.start_index + top.nodes.length ∧
        top.nodes.get? (pos / 2 ^ k - top.start_index) =
          some (verify_climb f tw param sibs level pos val) := by
  intro k
  induction k with
  | zero =>
      intro level cur ctr pos val hs he hp1 hp2 hval _
      refine ⟨[], ctr, [], cur, rfl, rfl, rfl, rfl, rfl, ?_, ?_, ?_⟩
      · simpa using hp1
      · simpa using hp2
      · simpa [verify_climb] using hval
  | succ k ih =>
      intro level cur ctr pos val hs he hp1 hp2 hval hbound
      obtain ⟨q, hq⟩ : ∃ q, cur.nodes.length = 2 * q :=
        ⟨cur.nodes.length / 2, by omega⟩
      obtain ⟨ps, hps, hpslen, hpsget⟩ :=
        build_parents_spec f tw param level (cur.start_index / 2) q cur.nodes 0 hq
      have hsib := sib_in_range cur.start_index cur.nodes.length pos hs he hp1 hp2
      have hsiblt : (pos ^^^ 1) - cur.start_index < cur.nodes.length := by omega
      obtain ⟨sib, hsibval⟩ :
          ∃ sib, cur.nodes.get? ((pos ^^^ 1) - cur.start_index) = some sib :=
        ⟨_, List.get?_eq_get hsiblt⟩
      set m := (pos - cur.start_index) / 2 with hm
      set v' := f param (tw (level + 1) (pos / 2))
        (if pos % 2 = 0 then [val, sib] else [sib, val]) with hv'def
      have hv' : ps.get? m = some v' := by
        rcases Nat.mod_two_eq_zero_or_one pos with hpar | hpar
        · have ha : cur.nodes.get? (2 * m) = some val := by
            have h2m : 2 * m = pos - cur.start_index := by omega
            rw [h2m]; exact hval
          have hb : cur.nodes.get? (2 * m + 1) = some sib := by
            have h2m : 2 * m + 1 = (pos ^^^ 1) - cur.start_index := by
              rw [xor_one, if_pos hpar]; omega
            rw [h2m]; exact hsibval
          have hg := hpsget m val sib ha hb
          have hidx : 0 + m + cur.start_index / 2 = pos / 2 := by omega
          rw [hidx] at hg
          rw [hg, hv'def, if_pos hpar]
        · have ha : cur.nodes.get? (2 * m) = some sib := by
            have h2m : 2 * m = (pos ^^^ 1) - cur.start_index := by
              rw [xor_one, if_neg (by omega)]; omega
            rw [h2m]; exact hsibval
          have hb : cur.nodes.get? (2 * m + 1) = some val := by
            have h2m : 2 * m + 1 = pos - cur.start_index := by omega
            rw [h2m]; exact hval
          have hg := hpsget m sib val ha hb
          have hidx : 0 + m + cur.start_index / 2 = pos / 2 := by omega
          rw [hidx] at hg
          rw [hg, hv'def, if_neg (by omega)]
      set L' := (get_padded_layer rng ctr ps (cur.start_index / 2)).1 with hL'
      set ctr' := (get_padded_layer rng ctr ps (cur.start_index / 2)).2 with hctr'
      have hLs : L'.start_index % 2 = 0 := pad_start_even rng ctr ps _
      have hLe : L'.nodes.length % 2 = 0 := pad_len_even rng ctr ps _
      have hcov := pad_covers rng ctr ps (cur.start_index / 2)
      rw [← hL'] at hcov
      have hq1 : 1 ≤ q := by omega
      have hpr1 : cur.start_index / 2 ≤ pos / 2 := by omega
      have hpr2 : pos / 2 < cur.start_index / 2 + q := by omega
      have hLp1 : L'.start_index ≤ pos / 2 := le_trans hcov.1 hpr1
      have hLp2 : pos / 2 < L'.start_index + L'.nodes.length := by
        have := hcov.2
        rw [hpslen] at this
        omega
      have hLval : L'.nodes.get? (pos / 2 - L'.start_index) = some v' := by
        have hg := pad_get_within rng ctr ps (cur.start_index / 2) (pos / 2)
          hpr1 (by omega)
        rw [← hL'] at hg
        rw [hg]
        have : pos / 2 - cur.start_index / 2 = m := by omega
        rw [this]
        exact hv'
      have h2le : 2 ≤ 2 ^ (k + 1) := by
        have h1 : 1 ≤ 2 ^ k := Nat.one_le_two_pow
        rw [pow_succ]
        omega
      have hpows : 2 ^ (k + 1) = 2 * 2 ^ k := by rw [pow_succ']
      have hkb : cur.start_index / 2 + q ≤ 2 ^ k := by
        rw [Nat.max_eq_left h2le] at hbound
        omega
      have hLbound : L'.start_index + L'.nodes.length ≤ max (2 ^ k) 2 := by
        have := pad_bound rng ctr ps (cur.start_index / 2) k (by omega) (by omega)
        rw [← hL'] at this
        exact this
      obtain ⟨rest', ctr2, sibs', top, hbuild', hrestlen, hpath', hsibslen,
        hlast', ht1, ht2, htval⟩ :=
        ih (level + 1) L' ctr' (pos / 2) v' hLs hLe hLp1 hLp2 hLval hLbound
      have hdiv : pos / 2 ^ (k + 1) = pos / 2 / 2 ^ k := by
        rw [Nat.div_div_eq_div_mul, ← pow_succ']
      have hsibget : cur.nodes.get ⟨(pos ^^^ 1) - cur.start_index, hsiblt⟩ = sib := by
        have hg := List.get?_eq_get hsiblt (l := cur.nodes)
        rw [hsibval] at hg
        exact (Option.some.inj hg).symm
      refine ⟨L' :: rest', ctr2, sib :: sibs', top, ?_, ?_, ?_, ?_, ?_, ?_, ?_, ?_⟩
      · simp only [build_layers, hps, except_bind_ok]
        rw [← hL', ← hctr', hbuild', except_bind_ok]
      · simp [hrestlen]
      · simp only [path_loop]
        have hcast : ((pos ^^^ 1 : Nat) : Int) - cur.start_index =
            (((pos ^^^ 1) - cur.start_index : Nat) : Int) := by omega
        rw [hcast, listGetPy_natCast _ _ hsiblt, except_bind_ok, hsibget,
          hpath', except_bind_ok]
      · simp [hsibslen]
      · rw [List.getLast?_cons_cons]
        exact hlast'
      · rw [hdiv]; exact ht1
      · rw [hdiv]; exact ht2
      · rw [hdiv]
        have hclimb : verify_climb f tw param (sib :: sibs') level pos val =
            verify_climb f tw param sibs' (level + 1) (pos / 2) v' := rfl
        rw [hclimb]
        exact htval

/-- Claim C8 (confirmed): for every hash tree built over leaves for the
active epochs (`start_index + #leaves ≤ 2^depth`) and every in-range
position `e`, `path(tree, e)` succeeds with exactly `depth` co-path
entries, and `hash_tree_verify(parameter, root(tree), e, leaf_e,
path(tree, e))` returns `true` — for every tweakable hash and RNG. -/
theorem tree_path_verify_round_trip {P T D : Type} [DecidableEq D]
    (f : P → T → List D → D) (tw : Nat → Nat → T) (rng : Nat → D) (param : P)
    (depth start_index : Nat) (leaf_hashes : List D) (e : Nat)
    (h1 : start_index + leaf_hashes.length ≤ 2 ^ depth)
    (h2 : start_index ≤ e) (h3 : e < start_index + leaf_hashes.length) :
    c8_run f tw rng param depth start_index leaf_hashes e = .ok true := by
  set p0 := (get_padded_layer rng 0 leaf_hashes start_index).1 with hp0
  set ctr0 := (get_padded_layer rng 0 leaf_hashes start_index).2 with hctr0
  obtain ⟨lv, hlv⟩ : ∃ lv, leaf_hashes.get? (e - start_index) = some lv :=
    ⟨_, List.get?_eq_get (by omega)⟩
  have hval0 : p0.nodes.get? (e - p0.start_index) = some lv := by
    have hg := pad_get_within rng 0 leaf_hashes start_index e h2 h3
    rw [← hp0] at hg
    rw [hg]
    exact hlv
  have hcov0 := pad_covers rng 0 leaf_hashes start_index
  rw [← hp0] at hcov0
  have hbound0 : p0.start_index + p0.nodes.length ≤ max (2 ^ depth) 2 := by
    have := pad_bound rng 0 leaf_hashes start_index depth (by omega) h1
    rw [← hp0] at this
    exact this
  obtain ⟨rest, ctr2, sibs, top, hbuild, hrestlen, hpath0, hsibslen,
      hlast, ht1, ht2, htval⟩ :=
    build_pipeline f tw param rng depth 0 p0 ctr0 e lv
      (pad_start_even rng 0 leaf_hashes start_index)
      (pad_len_even rng 0 leaf_hashes start_index)
      (by omega) (by omega) hval0 hbound0
  have hezero : e / 2 ^ depth = 0 := Nat.div_eq_of_lt (by omega)
  have htopstart : top.start_index = 0 := by omega
  rw [hezero, htopstart, Nat.sub_zero] at htval
  have hnew : hash_tree_new f tw rng param depth start_index leaf_hashes =
      .ok ⟨depth, p0 :: rest⟩ := by
    simp only [hash_tree_new]
    rw [if_neg (by omega)]
    simp only [← hp0, ← hctr0, hbuild, except_bind_ok]
  have hpath : hash_tree_path ⟨depth, p0 :: rest⟩ e =
      .ok ⟨p0.start_index, sibs⟩ := by
    simp only [hash_tree_path]
    rw [if_neg (by omega), if_neg (by omega)]
    simp only [hpath0, except_bind_ok]
  have h0lt : 0 < top.nodes.length := by
    rcases List.get?_eq_some.mp htval with ⟨hh, _⟩
    omega
  have hroot : hash_tree_root ⟨depth, p0 :: rest⟩ =
      .ok (verify_climb f tw param sibs 0 e lv) := by
    simp only [hash_tree_root, hlast]
    rw [show (0 : Int) = ((0 : Nat) : Int) from rfl,
      listGetPy_natCast top.nodes 0 h0lt]
    have hg := List.get?_eq_get h0lt (l := top.nodes)
    rw [htval] at hg
    rw [(Option.some.inj hg)]
  have hleaf : listGetPy leaf_hashes ((e : Int) - start_index) = .ok lv := by
    have hcast : (e : Int) - start_index = ((e - start_index : Nat) : Int) := by
      omega
    rw [hcast, listGetPy_natCast leaf_hashes (e - start_index) (by omega)]
    have hg := List.get?_eq_get (l := leaf_hashes)
      (show e - start_index < leaf_hashes.length by omega)
    rw [hlv] at hg
    rw [(Option.some.inj hg)]
  have hver : hash_tree_verify f tw param (verify_climb f tw param sibs 0 e lv)
      e lv ⟨p0.start_index, sibs⟩ = .ok true := by
    simp only [hash_tree_verify]
    have hepow : e < 2 ^ depth := by omega
    rw [if_neg (by omega)]
    rw [if_neg (by simp only [hsibslen]; omega)]
    simp
  simp only [c8_run, hnew, except_bind_ok, hpath, hroot, hleaf, hver]
  rw [hsibslen]
  simp

/-- Witness for C8's theorem on a concrete tree: depth 2, leaves `[5, 7]`
at start index 1, opened and verified at position 2, with an explicit
arithmetic tweakable hash and RNG stream. -/
theorem tree_path_verify_round_trip_witness :
    c8_run (fun (_ : Unit) (t : Nat × Nat) (ms : List Nat) =>
        2 * t.1 + 3 * t.2 + ms.sum + 1)
      (fun l p => (l, p)) (fun n => n + 100) () 2 1 [5, 7] 2 = .ok true :=
  tree_path_verify_round_trip _ _ _ _ 2 1 [5, 7] 2 (by norm_num) (by norm_num)
    (by norm_num)

theorem build_even_top {P T D : Type} (f : P → T → List D → D)
    (tw : Nat → Nat → T) (param : P) (rng : Nat → D) :
    ∀ (k level : Nat) (cur : HashTreeLayer D) (ctr : Nat),
      cur.start_index % 2 = 0 →
      cur.nodes.length % 2 = 0 →
      1 ≤ cur.nodes.length →
      cur.start_index + cur.nodes.length ≤ max (2 ^ k) 2 →
      (k = 0 → ∃ a i, cur.nodes = [a, rng i]) →
      ∃ (rest : List (HashTreeLayer D)) (ctr2 : Nat) (top : HashTreeLayer D),
        build_layers f tw param rng level k cur ctr = .ok (rest, ctr2) ∧
        (∀ L ∈ (cur :: rest), L.start_index % 2 = 0 ∧ L.nodes.length % 2 = 0) ∧
        (cur :: rest).getLast? = some top ∧
        ∃ a i, top.nodes = [a, rng i] := by
  intro k
  induction k with
  | zero =>
      intro level cur ctr hs he _ _ h0
      refine ⟨[], ctr, cur, rfl, ?_, rfl, h0 rfl⟩
      intro L hL
      rw [List.mem_singleton] at hL
      subst hL
      exact ⟨hs, he⟩
  | succ k ih =>
      intro level cur ctr hs he hn hbound _
      obtain ⟨q, hq⟩ : ∃ q, cur.nodes.length = 2 * q :=
        ⟨cur.nodes.length / 2, by omega⟩
      have hq1 : 1 ≤ q := by omega
      obtain ⟨ps, hps, hpslen, _⟩ :=
        build_parents_spec f tw param level (cur.start_index / 2) q cur.nodes 0 hq
      set L' := (get_padded_layer rng ctr ps (cur.start_index / 2)).1 with hL'
      set ctr' := (get_padded_layer rng ctr ps (cur.start_index / 2)).2 with hctr'
      have h2le : 2 ≤ 2 ^ (k + 1) := by
        have h1 : 1 ≤ 2 ^ k := Nat.one_le_two_pow
        rw [pow_succ]
        omega
      have hpows : 2 ^ (k + 1) = 2 * 2 ^ k := by rw [pow_succ']
      have hkb : cur.start_index / 2 + q ≤ 2 ^ k := by
        rw [Nat.max_eq_left h2le] at hbound
        omega
      have hLbound : L'.start_index + L'.nodes.length ≤ max (2 ^ k) 2 := by
        have := pad_bound rng ctr ps (cur.start_index / 2) k (by omega) (by omega)
        rw [← hL'] at this
        exact this
      have hLs : L'.start_index % 2 = 0 := pad_start_even rng ctr ps _
      have hLe : L'.nodes.length % 2 = 0 := pad_len_even rng ctr ps _
      have hcov := pad_covers rng ctr ps (cur.start_index / 2)
      rw [← hL'] at hcov
      have hLn : 1 ≤ L'.nodes.length := by omega
      have hL0 : k = 0 → ∃ a i, L'.nodes = [a, rng i] := by
        intro hk0
        subst hk0
        have hb2 : cur.start_index + cur.nodes.length ≤ 2 := by
          have h21 : (2 : Nat) ^ (0 + 1) = 2 := by norm_num
          rw [h21, Nat.max_self] at hbound
          exact hbound
        have hs0 : cur.start_index = 0 := by omega
        have hq' : q = 1 := by omega
        obtain ⟨p, hp⟩ := List.length_eq_one.mp (by rw [hpslen, hq'])
        refine ⟨p, ctr, ?_⟩
        rw [hL', pad_nodes_eq, hp, hs0]
        norm_num
      obtain ⟨rest', ctr2, top, hbuild', hall, hlast', htop⟩ :=
        ih (level + 1) L' ctr' hLs hLe hLn hLbound hL0
      refine ⟨L' :: rest', ctr2, top, ?_, ?_, ?_, htop⟩
      · simp only [build_layers, hps, except_bind_ok]
        rw [← hL', ← hctr', hbuild', except_bind_ok]
      · intro L hL
        rw [List.mem_cons] at hL
        rcases hL with rfl | hL
        · exact ⟨hs, he⟩
        · exact hall L hL
      · rw [List.getLast?_cons_cons]
        exact hlast'

/-- Claim C10 (amended): provided at least one leaf is present, every
layer stored in a constructed hash tree — including the top layer — has an
even `start_index` and an even number of nodes (padding is prepended on an
odd start index and appended on an even end index), the top layer holds
exactly two nodes, namely the root and one node drawn from the RNG
(`rand_domain`), and `root()` returns the first of them. -/
theorem tree_layers_even_and_top {P T D : Type} (f : P → T → List D → D)
    (tw : Nat → Nat → T) (rng : Nat → D) (param : P)
    (depth start_index : Nat) (leaf_hashes : List D)
    (h1 : start_index + leaf_hashes.length ≤ 2 ^ depth)
    (h2 : 1 ≤ leaf_hashes.length) :
    ∃ (tree : HashTree D) (top : HashTreeLayer D) (a : D) (i : Nat),
      hash_tree_new f tw rng param depth start_index leaf_hashes = .ok tree ∧
      (∀ L ∈ tree.layers, L.start_index % 2 = 0 ∧ L.nodes.length % 2 = 0) ∧
      tree.layers.getLast? = some top ∧
      top.nodes = [a, rng i] ∧
      hash_tree_root tree = .ok a := by
  set p0 := (get_padded_layer rng 0 leaf_hashes start_index).1 with hp0
  set ctr0 := (get_padded_layer rng 0 leaf_hashes start_index).2 with hctr0
  have hcov0 := pad_covers rng 0 leaf_hashes start_index
  rw [← hp0] at hcov0
  have hbound0 : p0.start_index + p0.nodes.length ≤ max (2 ^ depth) 2 := by
    have := pad_bound rng 0 leaf_hashes start_index depth (by omega) h1
    rw [← hp0] at this
    exact this
  have h00 : depth = 0 → ∃ a i, p0.nodes = [a, rng i] := by
    intro hd0
    subst hd0
    simp only [pow_zero] at h1
    have hs0 : start_index = 0 := by omega
    obtain ⟨l, hl⟩ := List.length_eq_one.mp (show leaf_hashes.length = 1 by omega)
    refine ⟨l, 0, ?_⟩
    rw [hp0, pad_nodes_eq, hl, hs0]
    norm_num
  obtain ⟨rest, ctr2, top, hbuild, hall, hlast, a, i, htop⟩ :=
    build_even_top f tw param rng depth 0 p0 ctr0
      (pad_start_even rng 0 leaf_hashes start_index)
      (pad_len_even rng 0 leaf_hashes start_index)
      (by omega) hbound0 h00
  have hnew : hash_tree_new f tw rng param depth start_index leaf_hashes =
      .ok ⟨depth, p0 :: rest⟩ := by
    simp only [hash_tree_new]
    rw [if_neg (by omega)]
    simp only [← hp0, ← hctr0, hbuild, except_bind_ok]
  have hroot : hash_tree_root ⟨depth, p0 :: rest⟩ = .ok a := by
    simp only [hash_tree_root, hlast, htop]
    rw [show (0 : Int) = ((0 : Nat) : Int) from rfl,
      listGetPy_natCast [a, rng i] 0 (by simp)]
    rfl
  exact ⟨⟨depth, p0 :: rest⟩, top, a, i, hnew, hall, hlast, htop, hroot⟩

/-- Witness for C10's theorem on a concrete tree: depth 2, leaves `[5, 7]`
at start index 1, with an explicit arithmetic tweakable hash and RNG. -/
theorem tree_layers_even_and_top_witness :
    ∃ (tree : HashTree Nat) (top : HashTreeLayer Nat) (a : Nat) (i : Nat),
      hash_tree_new (fun (_ : Unit) (t : Nat × Nat) (ms : List Nat) =>
          2 * t.1 + 3 * t.2 + ms.sum + 1)
        (fun l p => (l, p)) (fun n => n + 100) () 2 1 [5, 7] = .ok tree ∧
      (∀ L ∈ tree.layers, L.start_index % 2 = 0 ∧ L.nodes.length % 2 = 0) ∧
      tree.layers.getLast? = some top ∧
      top.nodes = [a, (fun n => n + 100) i] ∧
      hash_tree_root tree = .ok a :=
  tree_layers_even_and_top _ _ _ _ 2 1 [5, 7] (by norm_num) (by norm_num)

/-- Claim C10, counterexample: the constructor's assertion permits an
empty leaf list (`start_index + 0 ≤ 2^depth`), and the resulting tree's
layers — including the top layer — then hold zero nodes, not two: with
`depth = 1`, `start_index = 0` and no leaves, the per-layer node counts
are `[0, 0]`. -/
theorem tree_top_layer_cex :
    (hash_tree_new (fun (_ : Unit) (t : Nat × Nat) (_ : List Nat) => t.1)
        (fun l p => (l, p)) (fun n => n) () 1 0 []).map
      (fun t => t.layers.map (fun L => L.nodes.length)) = .ok [0, 0] ∧
    (0 : Nat) ≠ 2 := ⟨rfl, by decide⟩

/-! ### Claim C9: hypercube round trip -/

/-- Claim C9 (code bug): even on the legal input `V = 1`, `B = 2`, `d = 0`,
`offset = 0`, the round trip `map_to_integer(2, 1, 0, map_to_vertex(2, 1,
0, 0))` does not return the offset: `_prepare_layer_info(2)` itself raises
`IndexError` while computing the layer sizes of dimension `v = 2` (at
`d = 2` it reads `prefix_sums[2]` of the dimension-1 info, which has only
two entries), so `map_to_vertex` propagates `IndexError` before anything
else happens. -/
theorem hypercube_round_trip_crashes :
    (do
      let a ← map_to_vertex 2 1 0 0
      map_to_integer 2 1 0 a) = Except.error PyErr.indexError := by
  rfl

end GXMSS
